import Mathlib

/-!
Verification of the social-graph engine of Warsha_hub
(src/app/backend_files/social_network.py).

The graph is the adjacency matrix `self.graph : List[List[int]]` of the
Python class SocialNetwork; `graph[i][j] == 1` means user i follows user j.
We embed it as `Graph := List (List Nat)`.

Two models of the operations appear below.

* Namespace `SocialNetwork`: user ids as natural numbers.  On non-negative
  in-range ids Python list indexing is ordinary positional indexing, so these
  definitions follow the Python methods line by line; out-of-range reads
  default to 0 (they only arise outside the states the theorems quantify
  over, which are square matrices produced by the class itself).

* Namespace `PySocialNetwork`: user ids as integers, with Python's indexing
  semantics made explicit: an index i into a list of length n resolves to
  position i when 0 <= i < n, to position n + i when -n <= i < 0, and raises
  IndexError otherwise.  Every operation returns an `Option`: `none` models a
  raised IndexError.  This model decides the claims about negative and
  out-of-range ids.

Float-valued results (PageRank, influence, similarity scores) are embedded
over the exact fields: `ℚ` where only field operations occur, `ℝ` where the
code takes square roots.
-/

namespace SocialNetwork

/-- Adjacency matrix: row i, column j holds 1 when user i follows user j. -/
abbrev Graph := List (List Nat)

/-- Matrix entry `graph[i][j]`, defaulting to 0 out of range. -/
def entry (g : Graph) (i j : Nat) : Nat := (g.getD i []).getD j 0

/-- True when every row of the matrix has length equal to the number of rows.
All states produced by the SocialNetwork class are square. -/
def Square (g : Graph) : Prop := ∀ row ∈ g, row.length = g.length

/-- True when every matrix entry is 0 or 1, as in every state produced by the
SocialNetwork class (edges are only ever written as 0 or 1). -/
def ZeroOne (g : Graph) : Prop := ∀ row ∈ g, ∀ v ∈ row, v = 0 ∨ v = 1

/-- The state invariant the C4 induction maintains: a square matrix whose
diagonal is all zero. -/
def WellFormed (g : Graph) : Prop := Square g ∧ ∀ a, entry g a a = 0

/-- SocialNetwork.is_edge: False when an id is at or above the matrix size,
otherwise the matrix bit compared with 1. -/
def is_edge (g : Graph) (user1 user2 : Nat) : Bool :=
  if g.length ≤ user1 ∨ g.length ≤ user2 then false
  else entry g user1 user2 == 1

/-- SocialNetwork.get_followers: scan of column user_id. -/
def get_followers (g : Graph) (user_id : Nat) : List Nat :=
  if g.length ≤ user_id then []
  else (List.range g.length).filter (fun i => entry g i user_id == 1)

/-- SocialNetwork.get_following: scan of row user_id. -/
def get_following (g : Graph) (user_id : Nat) : List Nat :=
  if g.length ≤ user_id then []
  else (List.range g.length).filter (fun j => entry g user_id j == 1)

/-- SocialNetwork.remove_node: no-op at or above the matrix size, otherwise
the two loops clear row user_id (positions below size) and column user_id. -/
def remove_node (g : Graph) (user_id : Nat) : Graph :=
  if g.length ≤ user_id then g
  else
    let size := g.length
    let g1 := g.set user_id ((g.getD user_id []).mapIdx fun j v => if j < size then 0 else v)
    g1.map fun row => row.set user_id 0

/-- The loop body of SocialNetwork.get_degree_of_separation: pop the queue
head; if it is the target return its recorded distance, otherwise scan
neighbors 0..size-1 in order, enqueueing every unvisited n with
graph[n][current] == 1 (note: the code scans the COLUMN of current, i.e.
inbound edges).  The fuel argument bounds the number of pops; each node is
enqueued at most once, so fuel = size + 1 never runs out. -/
def degLoop (g : Graph) (target size : Nat) :
    Nat → List Bool → List Int → List Nat → Int
  | 0, _, _, _ => -1
  | fuel + 1, visited, dist, queue =>
    match queue with
    | [] => -1
    | current :: rest =>
      if current = target then dist.getD current (-1)
      else
        let st := (List.range size).foldl
          (fun (st : List Bool × List Int × List Nat) n =>
            if entry g n current = 1 ∧ st.1.getD n false = false then
              (st.1.set n true, st.2.1.set n (st.2.1.getD current (-1) + 1),
                st.2.2 ++ [n])
            else st)
          (visited, dist, rest)
        degLoop g target size fuel st.1 st.2.1 st.2.2

/-- SocialNetwork.get_degree_of_separation: -1 when an id is at or above the
matrix size, 0 when the ids are equal, otherwise the BFS of degLoop. -/
def get_degree_of_separation (g : Graph) (start_user target_user : Nat) : Int :=
  let size := g.length
  if size ≤ start_user ∨ size ≤ target_user then -1
  else if start_user = target_user then 0
  else
    degLoop g target_user size (size + 1)
      ((List.replicate size false).set start_user true)
      ((List.replicate size (-1 : Int)).set start_user 0)
      [start_user]

/-- The loop body of SocialNetwork.get_shortest_path: pop the queue head; if
it is the target stop and hand back the parent array, otherwise scan
neighbors 0..size-1 in order, enqueueing every unvisited n with
graph[current][n] == 1 (the code scans the ROW of current, i.e. outbound
edges), recording current as parent.  none models the not-found exit. -/
def pathLoop (g : Graph) (target size : Nat) :
    Nat → List Bool → List Int → List Nat → Option (List Int)
  | 0, _, _, _ => none
  | fuel + 1, visited, parent, queue =>
    match queue with
    | [] => none
    | current :: rest =>
      if current = target then some parent
      else
        let st := (List.range size).foldl
          (fun (st : List Bool × List Int × List Nat) n =>
            if entry g current n = 1 ∧ st.1.getD n false = false then
              (st.1.set n true, st.2.1.set n (current : Int), st.2.2 ++ [n])
            else st)
          (visited, parent, rest)
        pathLoop g target size fuel st.1 st.2.1 st.2.2

/-- Path reconstruction of SocialNetwork.get_shortest_path: walk parent
pointers from the target until the -1 sentinel, appending each node.  The
fuel bounds the walk; parent pointers found by BFS reach -1 within size
steps. -/
def backtrack (parent : List Int) : Nat → Int → List Int → List Int
  | 0, _, acc => acc
  | fuel + 1, curr, acc =>
    if curr = -1 then acc
    else backtrack parent fuel (parent.getD curr.toNat (-1)) (acc ++ [curr])

/-- SocialNetwork.get_shortest_path: [] when an id is at or above the matrix
size, [start] when the ids are equal, otherwise outbound BFS with parent
tracking followed by reversed backtracking from the target. -/
def get_shortest_path (g : Graph) (start_user target_user : Nat) : List Int :=
  let size := g.length
  if size ≤ start_user ∨ size ≤ target_user then []
  else if start_user = target_user then [(start_user : Int)]
  else
    match pathLoop g target_user size (size + 1)
        ((List.replicate size false).set start_user true)
        (List.replicate size (-1 : Int))
        [start_user] with
    | some parent => (backtrack parent (size + 1) (target_user : Int) []).reverse
    | none => []

/-- The damping factor d = 0.85 of SocialNetwork.calculate_pagerank. -/
def damping : ℚ := 17 / 20

/-- Python out_degree of source node i: sum(self.graph[i]). -/
def out_degree (g : Graph) (i : Nat) : Nat := (g.getD i []).sum

/-- One iteration of the PageRank loop of SocialNetwork.calculate_pagerank,
in exact rational arithmetic.  Every slot starts at the teleport base
(1 - d) / N; then every source i adds d * scores[i] / N to every slot when
its out-degree is 0, and otherwise adds d * scores[i] / out_degree to every
slot j with graph[i][j] == 1.  The accumulation loops are embedded as the
sum of the contributions. -/
def pr_step (g : Graph) (scores : List ℚ) : List ℚ :=
  let N := g.length
  (List.range N).map fun j =>
    (1 - damping) / N +
      ∑ i ∈ Finset.range N,
        (if out_degree g i = 0 then damping * scores.getD i 0 / N
         else if entry g i j = 1 then damping * scores.getD i 0 / out_degree g i
         else 0)

/-- The raw PageRank scores after k iterations, from the uniform 1/N start. -/
def pr_scores (g : Graph) : Nat → List ℚ
  | 0 => List.replicate g.length (1 / (g.length : ℚ))
  | k + 1 => pr_step g (pr_scores g k)

/-- SocialNetwork.calculate_pagerank in exact rational arithmetic: 20
iterations, then normalization by the maximum raw score (taken as 1 when the
list is empty or the maximum is 0).  The returned dictionary is embedded as
the list of its (id, score) pairs in key order. -/
def calculate_pagerank (g : Graph) : List (Nat × ℚ) :=
  let N := g.length
  if N = 0 then []
  else
    let scores := pr_scores g 20
    let m0 := scores.max?.getD 1
    let max_score := if m0 = 0 then 1 else m0
    (List.range N).map fun i => (i, scores.getD i 0 / max_score)

/-- Follower count of node i in SocialNetwork.calculate_influence: the
number of rows j with graph[j][i] == 1. -/
def follower_count (g : Graph) (i : Nat) : Nat :=
  (List.range g.length).countP fun j => entry g j i == 1

/-- The maximum follower count, max(follower_counts.values()).  The counts
are naturals and the dict is non-empty when this is read, so Python's max
equals a fold of max over 0. -/
def max_followers (g : Graph) : Nat :=
  ((List.range g.length).map (follower_count g)).foldl max 0

/-- SocialNetwork.calculate_influence in exact rational arithmetic: follower
counts normalized by the maximum count, all zero when the maximum is 0.  The
returned dictionary is embedded as the list of its (id, score) pairs in key
order. -/
def calculate_influence (g : Graph) : List (Nat × ℚ) :=
  let N := g.length
  if N = 0 then []
  else if max_followers g = 0 then (List.range N).map fun i => (i, (0 : ℚ))
  else (List.range N).map fun i =>
    (i, (follower_count g i : ℚ) / (max_followers g : ℚ))

open Classical in
/-- SocialNetwork._cosine_similarity over the reals: 0 when either interest
set is empty, otherwise the intersection size over the product of the square
roots of the sizes (with the dead division-by-zero guard of the source kept). -/
noncomputable def cosine_similarity (interests1 interests2 : Finset String) : ℝ :=
  if interests1 = ∅ ∨ interests2 = ∅ then 0
  else
    let inter := (interests1 ∩ interests2).card
    let magnitude1 := Real.sqrt interests1.card
    let magnitude2 := Real.sqrt interests2.card
    let denominator := magnitude1 * magnitude2
    if denominator = 0 then 0 else (inter : ℝ) / denominator

/-- SocialNetwork._jaccard_similarity over the reals: 0 when either
following set is empty, otherwise intersection size over union size (with
the dead union-empty guard of the source kept). -/
noncomputable def jaccard_similarity (g : Graph) (user1_id user2_id : Nat) : ℝ :=
  let following1 := (get_following g user1_id).toFinset
  let following2 := (get_following g user2_id).toFinset
  if following1 = ∅ ∨ following2 = ∅ then 0
  else
    let inter := (following1 ∩ following2).card
    let uni := (following1 ∪ following2).card
    if uni = 0 then 0 else (inter : ℝ) / (uni : ℝ)

open Classical in
/-- SocialNetwork.get_recommendations, with the database collaborator
return_user_by_id modeled as the parameter lookup mapping a user id to its
interest set (none when the user is not found or falsy).  Candidates equal to
the user, already followed, or without a lookup hit are skipped; the weighted
score 0.6 * jaccard + 0.4 * cosine is kept when strictly above the threshold;
the list is sorted by descending score (Python's stable sort). -/
noncomputable def get_recommendations (lookup : Nat → Option (Finset String))
    (g : Graph) (user_id : Nat) (threshold : ℝ) : List (Nat × ℝ) :=
  if g.length ≤ user_id then []
  else
    match lookup user_id with
    | none => []
    | some my_interests =>
      let my_following := get_following g user_id
      let recommendations := (List.range g.length).filterMap fun candidate_id =>
        if candidate_id = user_id then none
        else if candidate_id ∈ my_following then none
        else
          match lookup candidate_id with
          | none => none
          | some cand_interests =>
            let final_score := 0.6 * jaccard_similarity g user_id candidate_id +
              0.4 * cosine_similarity my_interests cand_interests
            if threshold < final_score then some (candidate_id, final_score) else none
      recommendations.mergeSort fun a b => decide (b.2 ≤ a.2)

/-- The 4-node chain 0 -> 1 -> 2 -> 3 of the specification's scenario. -/
def chainG : Graph := [[0, 1, 0, 0], [0, 0, 1, 0], [0, 0, 0, 1], [0, 0, 0, 0]]

end SocialNetwork

namespace PySocialNetwork

open SocialNetwork (Graph entry)

/-- Python list index resolution for a list of length n: an index i stands
for position i when 0 <= i < n, for position n + i when -n <= i < 0, and
raises IndexError otherwise (modeled as none). -/
def pyIdx (n : Nat) (i : Int) : Option Nat :=
  if 0 ≤ i then (if i < (n : Int) then some i.toNat else none)
  else (if 0 ≤ i + n then some (i + n).toNat else none)

/-- Python `l[i]` on a list. -/
def pyGet (l : List α) (i : Int) : Option α :=
  (pyIdx l.length i).bind fun k => l.get? k

/-- Python `l[i] = v` on a list. -/
def pySet (l : List α) (i : Int) (v : α) : Option (List α) :=
  (pyIdx l.length i).map fun k => l.set k v

/-- Python `graph[i][j] = v`: resolve the row, then assign within it. -/
def pySetEntry (g : Graph) (i j : Int) (v : Nat) : Option Graph :=
  (pyGet g i).bind fun row => (pySet row j v).bind fun row2 => pySet g i row2

/-- SocialNetwork.is_edge with Python integer ids: the guard only tests the
upper bound, so a negative id reaches `self.graph[user1][user2]` and is
resolved by Python indexing (aliasing from the end, or IndexError). -/
def pyIsEdge (g : Graph) (user1 user2 : Int) : Option Bool :=
  if (g.length : Int) ≤ user1 ∨ (g.length : Int) ≤ user2 then some false
  else do
    let row ← pyGet g user1
    let v ← pyGet row user2
    pure (v == 1)

/-- SocialNetwork.add_edge with Python integer ids. -/
def pyAddEdge (g : Graph) (from_user to_user : Int) : Option Graph :=
  if (g.length : Int) ≤ from_user ∨ (g.length : Int) ≤ to_user then some g
  else if from_user = to_user then some g
  else pySetEntry g from_user to_user 1

/-- SocialNetwork.remove_edge with Python integer ids. -/
def pyRemoveEdge (g : Graph) (from_user to_user : Int) : Option Graph :=
  if (g.length : Int) ≤ from_user ∨ (g.length : Int) ≤ to_user then some g
  else pySetEntry g from_user to_user 0

/-- SocialNetwork.get_followers with a Python integer id: scan of column
user_id over rows 0..size-1 (`self.graph[i][user_id]` re-resolves the column
index in every row). -/
def pyGetFollowers (g : Graph) (user_id : Int) : Option (List Nat) :=
  if (g.length : Int) ≤ user_id then some []
  else (List.range g.length).foldlM
    (fun (acc : List Nat) (i : Nat) => do
      let row ← pyGet g (i : Int)
      let v ← pyGet row user_id
      pure (if v = 1 then acc ++ [i] else acc))
    ([] : List Nat)

/-- SocialNetwork.get_following with a Python integer id: scan of row
user_id (`self.graph[user_id][j]` re-resolves the row index per iteration;
on an empty matrix the loop body never runs). -/
def pyGetFollowing (g : Graph) (user_id : Int) : Option (List Nat) :=
  if (g.length : Int) ≤ user_id then some []
  else (List.range g.length).foldlM
    (fun (acc : List Nat) (j : Nat) => do
      let row ← pyGet g user_id
      let v ← pyGet row (j : Int)
      pure (if v = 1 then acc ++ [j] else acc))
    ([] : List Nat)

/-- SocialNetwork.remove_node with a Python integer id: guard on the upper
bound only, then the row-clearing loop and the column-clearing loop,
assignment by assignment.  A raised IndexError yields none (the partially
mutated state is then unobservable through this model). -/
def pyRemoveNode (g : Graph) (user_id : Int) : Option Graph :=
  if (g.length : Int) ≤ user_id then some g
  else
    ((List.range g.length).foldlM (fun h j => pySetEntry h user_id (j : Int) 0) g).bind
      fun g1 => (List.range g.length).foldlM (fun h i => pySetEntry h (i : Int) user_id 0) g1

/-- SocialNetwork.create_node with a Python integer id: when user_id is at
least the current size, widen every row with zeros to user_id + 1 columns and
append fresh zero rows; otherwise a no-op. -/
def pyCreateNode (g : Graph) (user_id : Int) : Graph :=
  if (g.length : Int) ≤ user_id then
    let ns := (user_id + 1).toNat
    (g.map fun row => row ++ List.replicate (ns - row.length) 0) ++
      List.replicate (ns - g.length) (List.replicate ns 0)
  else g

/-- SocialNetwork.initialize_graph with the database collaborators as
parameters (return_last_user_id and get_all_follows): allocate a zero matrix
of side maxId + 1 and set a bit per connection whose endpoints are below the
size and distinct.  The comparisons are Python int comparisons, the
assignment is Python indexing. -/
def pyInitializeGraph (maxId : Int) (conns : List (Int × Int)) : Option Graph :=
  let sizeI : Int := maxId + 1
  let g0 : Graph := List.replicate sizeI.toNat (List.replicate sizeI.toNat 0)
  conns.foldlM
    (fun h c =>
      if c.1 < sizeI ∧ c.2 < sizeI then
        (if c.1 ≠ c.2 then pySetEntry h c.1 c.2 1 else some h)
      else some h)
    g0

/-- The mutating entry points of the SocialNetwork class, with the ids a
caller passes (Python ints). -/
inductive Op where
  | init (maxId : Int) (conns : List (Int × Int))
  | create (userId : Int)
  | removeN (userId : Int)
  | addE (fromUser toUser : Int)
  | removeE (fromUser toUser : Int)

/-- Run one operation on the graph state. -/
def applyOp (g : Graph) : Op → Option Graph
  | .init m cs => pyInitializeGraph m cs
  | .create i => some (pyCreateNode g i)
  | .removeN i => pyRemoveNode g i
  | .addE i j => pyAddEdge g i j
  | .removeE i j => pyRemoveEdge g i j

/-- Run a call sequence from the empty graph (the state of a fresh
SocialNetwork instance). -/
def run (ops : List Op) : Option Graph := ops.foldlM applyOp ([] : Graph)

/-- All ids appearing in an operation are non-negative. -/
def Op.Nonneg : Op → Prop
  | .init m cs => 0 ≤ m ∧ ∀ c ∈ cs, 0 ≤ c.1 ∧ 0 ≤ c.2
  | .create i => 0 ≤ i
  | .removeN i => 0 ≤ i
  | .addE i j => 0 ≤ i ∧ 0 ≤ j
  | .removeE i j => 0 ≤ i ∧ 0 ≤ j

instance : (op : Op) → Decidable op.Nonneg
  | .init m cs => inferInstanceAs (Decidable (0 ≤ m ∧ ∀ c ∈ cs, 0 ≤ c.1 ∧ 0 ≤ c.2))
  | .create i => inferInstanceAs (Decidable (0 ≤ i))
  | .removeN i => inferInstanceAs (Decidable (0 ≤ i))
  | .addE i j => inferInstanceAs (Decidable (0 ≤ i ∧ 0 ≤ j))
  | .removeE i j => inferInstanceAs (Decidable (0 ≤ i ∧ 0 ≤ j))

end PySocialNetwork

open SocialNetwork PySocialNetwork

/-- C1: on the 4-node chain 0 -> 1 -> 2 -> 3, get_shortest_path 0 3 returns
the non-empty path [0, 1, 2, 3] of 3 + 1 nodes whose consecutive pairs are
all outbound edges, yet get_degree_of_separation 0 3 returns -1, not 3: the
degree BFS follows inbound columns (graph[neighbor][current]) while the path
BFS follows outbound rows, so the claimed agreement between the two fails on
the code. -/
theorem c1_path_degree_disagree :
    get_shortest_path chainG 0 3 = [0, 1, 2, 3] ∧
    (get_shortest_path chainG 0 3).length = 3 + 1 ∧
    is_edge chainG 0 1 = true ∧
    is_edge chainG 1 2 = true ∧
    is_edge chainG 2 3 = true ∧
    get_degree_of_separation chainG 0 3 = -1 := by decide

/-- C2: on the 4-node chain 0 -> 1 -> 2 -> 3, get_degree_of_separation
returns -1 for (0, 3) and 3 for (3, 0) - exactly the reverse of the claimed
outbound-BFS values 3 and -1 - because its neighbor scan tests
graph[neighbor][current] == 1 (inbound edges) instead of
graph[current][neighbor] == 1. -/
theorem c2_degree_follows_inbound_edges :
    get_degree_of_separation chainG 0 3 = -1 ∧
    get_degree_of_separation chainG 3 0 = 3 := by decide

/-- C3 counterexample: for negative ids the upper-bound-only guards let
Python negative indexing through, so the claim fails: is_edge(-1, 0) aliases
to row 1 and returns True instead of the neutral False; add_edge(-1, 1)
mutates the graph instead of being a no-op; and is_edge(-3, 0) on a 2-node
graph raises IndexError (none) instead of never raising. -/
theorem c3_negative_ids_not_neutral :
    pyIsEdge [[0, 0], [1, 0]] (-1) 0 = some true ∧
    pyAddEdge [[0, 0], [0, 0]] (-1) 1 = some [[0, 0], [0, 1]] ∧
    pyIsEdge [[0, 0], [1, 0]] (-3) 0 = none := by decide

/-- C3 (amended): for every id at or above the matrix size, the query
operations return their neutral results (is_edge False, followers and
following empty) and the mutation operations return the graph unchanged,
and no such call raises an exception, whatever the other argument is.
(Negative ids are excluded: they are resolved by Python negative indexing.) -/
theorem c3_high_ids_neutral (g : Graph) (a b : Int) (ha : (g.length : Int) ≤ a) :
    pyIsEdge g a b = some false ∧
    pyIsEdge g b a = some false ∧
    pyGetFollowers g a = some [] ∧
    pyGetFollowing g a = some [] ∧
    pyAddEdge g a b = some g ∧
    pyAddEdge g b a = some g ∧
    pyRemoveEdge g a b = some g ∧
    pyRemoveEdge g b a = some g ∧
    pyRemoveNode g a = some g := by
  have ha' : ¬ a < (g.length : Int) := not_lt.mpr ha
  refine ⟨?_, ?_, ?_, ?_, ?_, ?_, ?_, ?_, ?_⟩ <;>
    simp [pyIsEdge, pyGetFollowers, pyGetFollowing, pyAddEdge, pyRemoveEdge,
      pyRemoveNode, ha]

/-- C3 witness: the amended statement instantiated on the 1-node graph with
the stale id 5. -/
theorem c3_high_ids_neutral_witness :
    pyIsEdge [[0]] 5 0 = some false ∧
    pyIsEdge [[0]] 0 5 = some false ∧
    pyGetFollowers [[0]] 5 = some [] ∧
    pyGetFollowing [[0]] 5 = some [] ∧
    pyAddEdge [[0]] 5 0 = some [[0]] ∧
    pyAddEdge [[0]] 0 5 = some [[0]] ∧
    pyRemoveEdge [[0]] 5 0 = some [[0]] ∧
    pyRemoveEdge [[0]] 0 5 = some [[0]] ∧
    pyRemoveNode [[0]] 5 = some [[0]] :=
  c3_high_ids_neutral [[0]] 5 0 (by decide)

/-- C8: cosine similarity of a non-empty interest set with itself is exactly
1 (in the real-number embedding of the float arithmetic). -/
theorem c8_cosine_self_eq_one (S : Finset String) (hS : S ≠ ∅) :
    cosine_similarity S S = 1 := by
  have hcard : 0 < S.card := Finset.card_pos.mpr (Finset.nonempty_iff_ne_empty.mpr hS)
  have hc : (0 : ℝ) < (S.card : ℝ) := by exact_mod_cast hcard
  have hsqrt : Real.sqrt S.card * Real.sqrt S.card = (S.card : ℝ) :=
    Real.mul_self_sqrt hc.le
  unfold cosine_similarity
  rw [if_neg (by simp [hS])]
  simp only [Finset.inter_self]
  rw [if_neg (by rw [hsqrt]; exact hc.ne.symm ∘ id)]
  rw [hsqrt, div_self hc.ne.symm]

/-- C8 witness: the singleton interest set. -/
theorem c8_cosine_self_eq_one_witness :
    ({"a"} : Finset String) ≠ ∅ ∧ cosine_similarity {"a"} {"a"} = 1 :=
  ⟨by decide, c8_cosine_self_eq_one {"a"} (by decide)⟩

instance (g : Graph) : Decidable (Square g) :=
  inferInstanceAs (Decidable (∀ row ∈ g, row.length = g.length))

instance (g : Graph) : Decidable (ZeroOne g) :=
  inferInstanceAs (Decidable (∀ row ∈ g, ∀ v ∈ row, v = 0 ∨ v = 1))

/-- Matrix entry through getElem?. -/
theorem entry_eq_getElem? (g : Graph) (a b : Nat) :
    entry g a b = ((g[a]?).getD [])[b]?.getD 0 := by
  simp [entry]

/-- C5: on a square graph, remove_node of an in-bounds id empties the id's
follower and following lists, keeps the matrix dimension, and leaves every
entry (a, b) with a and b both different from id unchanged. -/
theorem c5_remove_node_frame (g : Graph) (nid : Nat)
    (hsq : Square g) (hid : nid < g.length) :
    get_followers (remove_node g nid) nid = [] ∧
    get_following (remove_node g nid) nid = [] ∧
    (remove_node g nid).length = g.length ∧
    (∀ a b, a ≠ nid → b ≠ nid → entry (remove_node g nid) a b = entry g a b) := by
  have hnot : ¬ g.length ≤ nid := not_le.mpr hid
  have hsome : ∀ a, a < g.length → ∃ row, g[a]? = some row := by
    intro a ha
    cases h : g[a]? with
    | none => exact absurd (List.getElem?_eq_none_iff.mp h) (not_le.mpr ha)
    | some r => exact ⟨r, rfl⟩
  obtain ⟨rowid, hrowid⟩ := hsome nid hid
  have hgetD : g.getD nid [] = rowid := by
    rw [List.getD_eq_getElem?_getD, hrowid]
    rfl
  have hrowidlen : rowid.length = g.length := hsq rowid (List.getElem?_mem hrowid)
  have hentry : ∀ (h : Graph) a b, entry h a b = ((h[a]?).getD [])[b]?.getD 0 := by
    intro h a b
    simp [entry]
  set f : Nat → Nat → Nat := fun j v => if j < g.length then 0 else v with hf
  have hr : remove_node g nid =
      (g.set nid (rowid.mapIdx f)).map fun row => row.set nid 0 := by
    rw [remove_node, if_neg hnot, hgetD]
  have hlen : (remove_node g nid).length = g.length := by
    rw [hr]
    simp
  have hMap : ∀ a : Nat, (remove_node g nid)[a]? =
      ((g.set nid (rowid.mapIdx f))[a]?).map fun row => row.set nid 0 := by
    intro a
    rw [hr, List.getElem?_map]
  have hAtNe : ∀ a : Nat, a ≠ nid →
      (remove_node g nid)[a]? = (g[a]?).map fun row => row.set nid 0 := by
    intro a ha
    rw [hMap a, List.getElem?_set_ne fun h => ha h.symm]
  have hAtId : (remove_node g nid)[nid]? = some ((rowid.mapIdx f).set nid 0) := by
    rw [hMap nid, List.getElem?_set_self hid]
    rfl
  have hcol : ∀ a, a < g.length → entry (remove_node g nid) a nid = 0 := by
    intro a ha
    rcases eq_or_ne a nid with heq | hne
    · subst heq
      rw [hentry, hAtId]
      have hlt : a < (rowid.mapIdx f).length := by
        rw [List.length_mapIdx, hrowidlen]
        exact ha
      simp [List.getElem?_set_self hlt]
    · obtain ⟨rowa, hrowa⟩ := hsome a ha
      rw [hentry, hAtNe a hne, hrowa]
      have hlt : nid < rowa.length := by
        rw [hsq rowa (List.getElem?_mem hrowa)]
        exact hid
      simp [List.getElem?_set_self hlt]
  have hrowz : ∀ b, b < g.length → entry (remove_node g nid) nid b = 0 := by
    intro b hb
    rw [hentry, hAtId]
    rcases eq_or_ne b nid with heq | hne
    · subst heq
      have hlt : b < (rowid.mapIdx f).length := by
        rw [List.length_mapIdx, hrowidlen]
        exact hb
      simp [List.getElem?_set_self hlt]
    · have hb' : b < rowid.length := by rwa [hrowidlen]
      rw [Option.getD_some, List.getElem?_set_ne fun h => hne h.symm,
        List.getElem?_mapIdx, List.getElem?_eq_getElem hb']
      simp [hf, hb]
  have hframe : ∀ a b, a ≠ nid → b ≠ nid →
      entry (remove_node g nid) a b = entry g a b := by
    intro a b ha hb
    rcases lt_or_ge a g.length with halt | hage
    · obtain ⟨rowa, hrowa⟩ := hsome a halt
      rw [hentry, hentry, hAtNe a ha, hrowa]
      simp only [Option.map_some']
      rw [Option.getD_some, Option.getD_some,
        List.getElem?_set_ne fun h => hb h.symm]
    · have h1 : (remove_node g nid)[a]? = none :=
        List.getElem?_eq_none (by rw [hlen]; exact hage)
      have h2 : g[a]? = none := List.getElem?_eq_none hage
      rw [hentry, hentry, h1, h2]
  refine ⟨?_, ?_, hlen, hframe⟩
  · rw [get_followers, if_neg (by rw [hlen]; exact hnot), List.filter_eq_nil_iff]
    intro a ha
    rw [hlen, List.mem_range] at ha
    simp [hcol a ha]
  · rw [get_following, if_neg (by rw [hlen]; exact hnot), List.filter_eq_nil_iff]
    intro b hb
    rw [hlen, List.mem_range] at hb
    simp [hrowz b hb]

/-- Every member of a list is at most the fold of max over it. -/
theorem le_foldl_max (l : List Nat) (a : Nat) :
    a ≤ l.foldl max a ∧ ∀ x ∈ l, x ≤ l.foldl max a := by
  induction l generalizing a with
  | nil => simp
  | cons y ys ih =>
    refine ⟨le_trans (le_max_left a y) (ih (max a y)).1, ?_⟩
    intro x hx
    rcases List.mem_cons.mp hx with rfl | hx
    · exact le_trans (le_max_right a x) (ih (max a x)).1
    · exact (ih (max a y)).2 x hx

/-- Every in-bounds follower count is at most max_followers. -/
theorem follower_count_le_max (g : Graph) (i : Nat) (hi : i < g.length) :
    follower_count g i ≤ max_followers g :=
  (le_foldl_max ((List.range g.length).map (follower_count g)) 0).2 _
    (List.mem_map.mpr ⟨i, List.mem_range.mpr hi, rfl⟩)

/-- C7: calculate_influence returns scores in [0, 1]; when the maximum
follower count is positive, every node attaining it gets score exactly 1;
when it is 0 every score is 0; and on the single-node graph the result is
the single pair (0, 0). -/
theorem c7_influence_normalized (g : Graph) :
    (∀ p ∈ calculate_influence g, 0 ≤ p.2 ∧ p.2 ≤ 1) ∧
    (0 < max_followers g → ∀ i, i < g.length →
      follower_count g i = max_followers g →
      (i, (1 : ℚ)) ∈ calculate_influence g) ∧
    (max_followers g = 0 → ∀ p ∈ calculate_influence g, p.2 = 0) ∧
    calculate_influence [[0]] = [(0, 0)] := by
  refine ⟨?_, ?_, ?_, by decide⟩
  · intro p hp
    rcases Nat.eq_zero_or_pos g.length with hN | hN
    · rw [calculate_influence, if_pos hN] at hp
      cases hp
    · rw [calculate_influence, if_neg (Nat.pos_iff_ne_zero.mp hN)] at hp
      by_cases hm : max_followers g = 0
      · rw [if_pos hm] at hp
        obtain ⟨i, _, rfl⟩ := List.mem_map.mp hp
        norm_num
      · rw [if_neg hm] at hp
        obtain ⟨i, hi, rfl⟩ := List.mem_map.mp hp
        have hmpos : (0 : ℚ) < (max_followers g : ℚ) := by
          exact_mod_cast Nat.pos_of_ne_zero hm
        constructor
        · exact div_nonneg (by positivity) hmpos.le
        · rw [div_le_one hmpos]
          exact_mod_cast follower_count_le_max g i (List.mem_range.mp hi)
  · intro hm i hi hmax
    have hN : g.length ≠ 0 := by omega
    rw [calculate_influence, if_neg hN, if_neg (by omega)]
    refine List.mem_map.mpr ⟨i, List.mem_range.mpr hi, ?_⟩
    rw [hmax, div_self (by exact_mod_cast hm.ne.symm)]
  · intro hm p hp
    rcases Nat.eq_zero_or_pos g.length with hN | hN
    · rw [calculate_influence, if_pos hN] at hp
      cases hp
    · rw [calculate_influence, if_neg (Nat.pos_iff_ne_zero.mp hN), if_pos hm] at hp
      obtain ⟨i, _, rfl⟩ := List.mem_map.mp hp
      rfl

/-- C7 witness: the single-node scenario read off the theorem. -/
theorem c7_influence_normalized_witness :
    calculate_influence [[0]] = [(0, 0)] :=
  (c7_influence_normalized [[0]]).2.2.2

/-- C10: get_recommendations returns the empty list whenever the user id is
at or above the matrix size or the attribute lookup for the user itself
reports not-found.  (The embedding is a pure function of the graph, so no
mutation and no exception can occur.) -/
theorem c10_recommendations_guard (lookup : Nat → Option (Finset String))
    (g : Graph) (user_id : Nat) (threshold : ℝ)
    (h : g.length ≤ user_id ∨ lookup user_id = none) :
    get_recommendations lookup g user_id threshold = [] := by
  by_cases h1 : g.length ≤ user_id
  · rw [get_recommendations, if_pos h1]
  · rcases h with h | h
    · exact absurd h h1
    · rw [get_recommendations, if_neg h1, h]

/-- C10 witness: the empty graph with a lookup that finds nobody. -/
theorem c10_recommendations_guard_witness :
    (([] : Graph).length ≤ 0 ∨ (fun _ : Nat => (none : Option (Finset String))) 0 = none) ∧
    get_recommendations (fun _ => none) [] 0 0 = [] :=
  ⟨Or.inl (le_refl 0),
    c10_recommendations_guard (fun _ => none) [] 0 0 (Or.inl (le_refl 0))⟩

/-- C9: every pair returned by get_recommendations names a candidate other
than the user, not already followed, found by the lookup; carries exactly
the score 0.6 * jaccard + 0.4 * cosine, strictly above the threshold; and
the list is sorted in descending score order. -/
theorem c9_recommendations_spec (lookup : Nat → Option (Finset String))
    (g : Graph) (user_id : Nat) (threshold : ℝ) :
    (∀ p ∈ get_recommendations lookup g user_id threshold,
      p.1 ≠ user_id ∧ p.1 ∉ get_following g user_id ∧
      (∃ mi ci, lookup user_id = some mi ∧ lookup p.1 = some ci ∧
        p.2 = 0.6 * jaccard_similarity g user_id p.1 +
          0.4 * cosine_similarity mi ci) ∧
      threshold < p.2) ∧
    (get_recommendations lookup g user_id threshold).Pairwise
      (fun a b => b.2 ≤ a.2) := by
  by_cases h1 : g.length ≤ user_id
  · rw [get_recommendations, if_pos h1]
    exact ⟨by simp, List.Pairwise.nil⟩
  · cases h2 : lookup user_id with
    | none =>
      rw [get_recommendations, if_neg h1, h2]
      exact ⟨by simp, List.Pairwise.nil⟩
    | some mi =>
      have hres : get_recommendations lookup g user_id threshold =
          ((List.range g.length).filterMap fun candidate_id =>
            if candidate_id = user_id then none
            else if candidate_id ∈ get_following g user_id then none
            else
              match lookup candidate_id with
              | none => none
              | some cand_interests =>
                if threshold < 0.6 * jaccard_similarity g user_id candidate_id +
                    0.4 * cosine_similarity mi cand_interests then
                  some (candidate_id, 0.6 * jaccard_similarity g user_id candidate_id +
                    0.4 * cosine_similarity mi cand_interests)
                else none).mergeSort fun a b => decide (b.2 ≤ a.2) := by
        rw [get_recommendations, if_neg h1, h2]
      constructor
      · intro p hp
        rw [hres, List.mem_mergeSort] at hp
        obtain ⟨c, _, hfc⟩ := List.mem_filterMap.mp hp
        by_cases e1 : c = user_id
        · simp [e1] at hfc
        by_cases e2 : c ∈ get_following g user_id
        · simp [e1, e2] at hfc
        cases e3 : lookup c with
        | none => simp [e1, e2, e3] at hfc
        | some ci =>
          simp only [if_neg e1, if_neg e2, e3] at hfc
          by_cases e4 : threshold < 0.6 * jaccard_similarity g user_id c +
              0.4 * cosine_similarity mi ci
          · rw [if_pos e4] at hfc
            cases hfc
            exact ⟨e1, e2, ⟨mi, ci, rfl, e3, rfl⟩, e4⟩
          · rw [if_neg e4] at hfc
            cases hfc
      · rw [hres]
        have hs := @List.sorted_mergeSort (Nat × ℝ)
          (fun a b => decide (b.2 ≤ a.2))
          (fun a b c hab hbc => by
            rw [decide_eq_true_iff] at *
            exact le_trans hbc hab)
          (fun a b => by simpa using le_total b.2 a.2)
          ((List.range g.length).filterMap fun candidate_id =>
            if candidate_id = user_id then none
            else if candidate_id ∈ get_following g user_id then none
            else
              match lookup candidate_id with
              | none => none
              | some cand_interests =>
                if threshold < 0.6 * jaccard_similarity g user_id candidate_id +
                    0.4 * cosine_similarity mi cand_interests then
                  some (candidate_id, 0.6 * jaccard_similarity g user_id candidate_id +
                    0.4 * cosine_similarity mi cand_interests)
                else none)
        exact hs.imp fun h => of_decide_eq_true h

/-- C9 witness: the spec applied to the empty graph. -/
theorem c9_recommendations_spec_witness :
    (get_recommendations (fun _ => some ∅) [] 0 0).Pairwise
      (fun a b => b.2 ≤ a.2) :=
  (c9_recommendations_spec (fun _ => some ∅) [] 0 0).2

/-- C5 witness: removing node 0 from the mutual 2-cycle. -/
theorem c5_remove_node_frame_witness :
    get_followers (remove_node [[0, 1], [1, 0]] 0) 0 = [] ∧
    get_following (remove_node [[0, 1], [1, 0]] 0) 0 = [] ∧
    (remove_node [[0, 1], [1, 0]] 0).length = ([[0, 1], [1, 0]] : Graph).length ∧
    (∀ a b, a ≠ 0 → b ≠ 0 →
      entry (remove_node [[0, 1], [1, 0]] 0) a b = entry [[0, 1], [1, 0]] a b) :=
  c5_remove_node_frame [[0, 1], [1, 0]] 0 (by decide) (by decide)

/-- A successfully resolved Python index is in range. -/
theorem pyIdx_some_lt {n : Nat} {i : Int} {k : Nat} (h : pyIdx n i = some k) :
    k < n := by
  unfold pyIdx at h
  split_ifs at h with h1 h2 h3 <;> injection h with h <;> omega

/-- A non-negative Python index resolves positionally. -/
theorem pyIdx_nonneg {n : Nat} {i : Int} {k : Nat} (hi : 0 ≤ i)
    (h : pyIdx n i = some k) : k = i.toNat ∧ i < (n : Int) := by
  unfold pyIdx at h
  rw [if_pos hi] at h
  by_cases h2 : i < (n : Int)
  · rw [if_pos h2] at h
    exact ⟨(Option.some_inj.mp h).symm, h2⟩
  · rw [if_neg h2] at h
    exact absurd h (by simp)

/-- What a successful Python entry assignment did: it replaced row k by that
row with position k2 set, for the resolved indices k and k2. -/
theorem pySetEntry_some {h : Graph} {i j : Int} {v : Nat} {g' : Graph}
    (hs : pySetEntry h i j v = some g') :
    ∃ k row k2, pyIdx h.length i = some k ∧ h[k]? = some row ∧
      pyIdx row.length j = some k2 ∧ g' = h.set k (row.set k2 v) := by
  unfold pySetEntry pyGet pySet at hs
  obtain ⟨row, hrow, hs2⟩ := Option.bind_eq_some.mp hs
  obtain ⟨k, hk, hkrow⟩ := Option.bind_eq_some.mp hrow
  obtain ⟨row2, hrow2, hs3⟩ := Option.bind_eq_some.mp hs2
  obtain ⟨k2, hk2, hrow2v⟩ := Option.map_eq_some'.mp hrow2
  obtain ⟨k3, hk3, hg'⟩ := Option.map_eq_some'.mp hs3
  rw [hk] at hk3
  rw [List.get?_eq_getElem?] at hkrow
  refine ⟨k, row, k2, hk, hkrow, hk2, ?_⟩
  rw [← hg', ← Option.some_inj.mp hk3, hrow2v]

/-- Setting an entry off the diagonal, or setting it to 0, preserves the
square-with-zero-diagonal invariant. -/
theorem wellFormed_set {h : Graph} {k k2 : Nat} {v : Nat} {row : List Nat}
    (hrow : h[k]? = some row) (hwf : WellFormed h) (hor : k ≠ k2 ∨ v = 0) :
    WellFormed (h.set k (row.set k2 v)) := by
  obtain ⟨hsq, hdiag⟩ := hwf
  have hklen : k < h.length := by
    rcases List.getElem?_eq_some_iff.mp hrow with ⟨hk, _⟩
    exact hk
  have hrowlen : row.length = h.length := hsq row (List.getElem?_mem hrow)
  constructor
  · intro r hr
    rw [List.length_set]
    rcases List.mem_or_eq_of_mem_set hr with hr | rfl
    · exact hsq r hr
    · rw [List.length_set]
      exact hrowlen
  · intro a
    have key : (h.set k (row.set k2 v))[a]? =
        if a = k then some (row.set k2 v) else h[a]? := by
      by_cases hak : a = k
      · rw [if_pos hak, hak, List.getElem?_set_self hklen]
      · rw [if_neg hak, List.getElem?_set_ne fun hh => hak hh.symm]
    rw [entry_eq_getElem?, key]
    by_cases hak : a = k
    · rw [if_pos hak, Option.getD_some]
      by_cases hk2a : k2 = a
      · rcases hor with hne | rfl
        · exact absurd ((hk2a.trans hak).symm : k = k2) hne
        · rw [hk2a]
          by_cases hra : a < row.length
          · rw [List.getElem?_set_self hra, Option.getD_some]
          · rw [List.set_eq_of_length_le (le_of_not_lt hra),
              List.getElem?_eq_none (le_of_not_lt hra), Option.getD_none]
      · rw [List.getElem?_set_ne hk2a]
        have hent : entry h a a = (row[a]?).getD 0 := by
          rw [entry_eq_getElem?, hak, hrow, Option.getD_some]
        rw [← hent]
        exact hdiag a
    · rw [if_neg hak]
      have hent : entry h a a = ((h[a]?).getD [])[a]?.getD 0 := entry_eq_getElem? h a a
      rw [← hent]
      exact hdiag a

/-- A property preserved by every successful step is carried through a
monadic fold over Option. -/
theorem foldlM_option_inv {α : Type} {P : Graph → Prop} {step : Graph → α → Option Graph}
    {l : List α} {g0 g1 : Graph}
    (hstep : ∀ x ∈ l, ∀ h g', P h → step h x = some g' → P g')
    (h0 : P g0) (hfold : l.foldlM step g0 = some g1) : P g1 := by
  induction l generalizing g0 with
  | nil =>
    simp only [List.foldlM_nil] at hfold
    exact Option.some_inj.mp hfold ▸ h0
  | cons x xs ih =>
    rw [List.foldlM_cons] at hfold
    obtain ⟨h1, hx, hrest⟩ := Option.bind_eq_some.mp hfold
    exact ih (fun y hy => hstep y (List.mem_cons_of_mem x hy))
      (hstep x (List.mem_cons_self x xs) g0 h1 h0 hx) hrest

/-- The freshly allocated zero matrix is square with a zero diagonal. -/
theorem zero_matrix_wf (n : Nat) :
    WellFormed (List.replicate n (List.replicate n (0 : Nat))) := by
  constructor
  · intro r hr
    rw [List.eq_of_mem_replicate hr]
    simp
  · intro a
    rw [entry_eq_getElem?]
    by_cases ha : a < n
    · rw [List.getElem?_replicate_of_lt ha, Option.getD_some,
        List.getElem?_replicate_of_lt ha, Option.getD_some]
    · have hnone : (List.replicate n (List.replicate n (0 : Nat)))[a]? = none :=
        List.getElem?_eq_none (by simpa using le_of_not_lt ha)
      rw [hnone, Option.getD_none]
      simp

/-- create_node preserves the invariant: old rows are padded with zeros and
fresh rows are all zero. -/
theorem pyCreateNode_wf {h : Graph} (i : Int) (hwf : WellFormed h) :
    WellFormed (pyCreateNode h i) := by
  obtain ⟨hsq, hdiag⟩ := hwf
  unfold pyCreateNode
  split_ifs with hguard
  · set ns := (i + 1).toNat with hns
    have hlenlt : h.length < ns := by omega
    constructor
    · intro r hr
      simp only [List.length_append, List.length_map, List.length_replicate]
      rcases List.mem_append.mp hr with hr | hr
      · obtain ⟨row, hrowm, rfl⟩ := List.mem_map.mp hr
        rw [List.length_append, List.length_replicate]
        have := hsq row hrowm
        omega
      · rw [List.eq_of_mem_replicate hr, List.length_replicate]
        omega
    · intro a
      rw [entry_eq_getElem?]
      by_cases ha1 : a < h.length
      · have hmaplen : a < (h.map fun row => row ++ List.replicate (ns - row.length) 0).length := by
          simpa using ha1
        rw [List.getElem?_append_left hmaplen, List.getElem?_map]
        obtain ⟨row, hrow⟩ : ∃ row, h[a]? = some row :=
          ⟨_, List.getElem?_eq_getElem ha1⟩
        rw [hrow, Option.map_some', Option.getD_some]
        have hrl : row.length = h.length := hsq row (List.getElem?_mem hrow)
        have hrowlt : a < row.length := by omega
        rw [List.getElem?_append_left hrowlt]
        have hent : entry h a a = (row[a]?).getD 0 := by
          rw [entry_eq_getElem?, hrow, Option.getD_some]
        rw [← hent]
        exact hdiag a
      · by_cases ha2 : a < ns
        · have hmaplen : (h.map fun row => row ++ List.replicate (ns - row.length) 0).length ≤ a := by
            simpa using le_of_not_lt ha1
          rw [List.getElem?_append_right hmaplen]
          have hidx : (List.replicate (ns - h.length) (List.replicate ns (0 : Nat)))[a -
              (h.map fun row => row ++ List.replicate (ns - row.length) 0).length]? =
              some (List.replicate ns 0) := by
            apply List.getElem?_replicate_of_lt
            simp only [List.length_map]
            omega
          rw [hidx, Option.getD_some, List.getElem?_replicate_of_lt ha2, Option.getD_some]
        · have hnone : ((h.map fun row => row ++ List.replicate (ns - row.length) 0) ++
              List.replicate (ns - h.length) (List.replicate ns (0 : Nat)))[a]? = none := by
            apply List.getElem?_eq_none
            simp only [List.length_append, List.length_map, List.length_replicate]
            omega
          rw [hnone, Option.getD_none]
          simp
  · exact ⟨hsq, hdiag⟩

/-- initialize_graph with non-negative connection endpoints yields a square
graph with a zero diagonal. -/
theorem pyInitializeGraph_wf {maxId : Int} {conns : List (Int × Int)} {g' : Graph}
    (hconns : ∀ c ∈ conns, 0 ≤ c.1 ∧ 0 ≤ c.2)
    (hs : pyInitializeGraph maxId conns = some g') : WellFormed g' := by
  unfold pyInitializeGraph at hs
  refine foldlM_option_inv ?_ (zero_matrix_wf _) hs
  intro c hc h g'' hwf hstep
  split_ifs at hstep with h1 h2
  · obtain ⟨k, row, k2, hk, hrow, hk2, rfl⟩ := pySetEntry_some hstep
    obtain ⟨hk1, _⟩ := pyIdx_nonneg (hconns c hc).1 hk
    obtain ⟨hk21, _⟩ := pyIdx_nonneg (hconns c hc).2 hk2
    refine wellFormed_set hrow hwf (Or.inl ?_)
    rw [hk1, hk21]
    intro heq
    have h01 := (hconns c hc).1
    have h02 := (hconns c hc).2
    exact h2 (by omega)
  · exact Option.some_inj.mp hstep ▸ hwf
  · exact Option.some_inj.mp hstep ▸ hwf

/-- add_edge with non-negative ids preserves the invariant (its self-loop
guard really fires for non-negative ids). -/
theorem pyAddEdge_wf {h g' : Graph} {i j : Int} (hi : 0 ≤ i) (hj : 0 ≤ j)
    (hwf : WellFormed h) (hs : pyAddEdge h i j = some g') : WellFormed g' := by
  unfold pyAddEdge at hs
  split_ifs at hs with h1 h2
  · exact Option.some_inj.mp hs ▸ hwf
  · exact Option.some_inj.mp hs ▸ hwf
  · obtain ⟨k, row, k2, hk, hrow, hk2, rfl⟩ := pySetEntry_some hs
    obtain ⟨hk1, _⟩ := pyIdx_nonneg hi hk
    obtain ⟨hk21, _⟩ := pyIdx_nonneg hj hk2
    refine wellFormed_set hrow hwf (Or.inl ?_)
    rw [hk1, hk21]
    intro heq
    exact h2 (by omega)

/-- remove_edge writes a 0, so it preserves the invariant for every id. -/
theorem pyRemoveEdge_wf {h g' : Graph} {i j : Int}
    (hwf : WellFormed h) (hs : pyRemoveEdge h i j = some g') : WellFormed g' := by
  unfold pyRemoveEdge at hs
  split_ifs at hs with h1
  · exact Option.some_inj.mp hs ▸ hwf
  · obtain ⟨k, row, k2, hk, hrow, hk2, rfl⟩ := pySetEntry_some hs
    exact wellFormed_set hrow hwf (Or.inr rfl)

/-- remove_node writes only 0s, so it preserves the invariant for every id. -/
theorem pyRemoveNode_wf {h g' : Graph} {i : Int}
    (hwf : WellFormed h) (hs : pyRemoveNode h i = some g') : WellFormed g' := by
  unfold pyRemoveNode at hs
  split_ifs at hs with h1
  · exact Option.some_inj.mp hs ▸ hwf
  · obtain ⟨g1, hg1, hg2⟩ := Option.bind_eq_some.mp hs
    have hwf1 : WellFormed g1 :=
      foldlM_option_inv (fun j hj h' g'' hwfh hstep => by
        obtain ⟨k, row, k2, hk, hrow, hk2, rfl⟩ := pySetEntry_some hstep
        exact wellFormed_set hrow hwfh (Or.inr rfl)) hwf hg1
    exact foldlM_option_inv (fun j hj h' g'' hwfh hstep => by
        obtain ⟨k, row, k2, hk, hrow, hk2, rfl⟩ := pySetEntry_some hstep
        exact wellFormed_set hrow hwfh (Or.inr rfl)) hwf1 hg2

/-- Every mutating entry point with non-negative ids preserves the
square-with-zero-diagonal invariant. -/
theorem applyOp_wf {h g' : Graph} {op : Op} (hop : op.Nonneg)
    (hwf : WellFormed h) (hs : applyOp h op = some g') : WellFormed g' := by
  cases op with
  | init m cs => exact pyInitializeGraph_wf hop.2 hs
  | create i => exact Option.some_inj.mp hs ▸ pyCreateNode_wf i hwf
  | removeN i => exact pyRemoveNode_wf hwf hs
  | addE i j => exact pyAddEdge_wf hop.1 hop.2 hwf hs
  | removeE i j => exact pyRemoveEdge_wf hwf hs

/-- C4 counterexample: from the empty graph, create_node(1) followed by
add_edge(-1, 1) succeeds and records the self-loop (1, 1): the self-loop
guard compares -1 with 1, but Python indexing writes graph[1][1] = 1, so a
reachable state violates isEdge(a, a) == false. -/
theorem c4_self_loop_reachable :
    run [Op.create 1, Op.addE (-1) 1] = some [[0, 0], [0, 1]] ∧
    is_edge [[0, 0], [0, 1]] 1 1 = true := by decide

/-- C4 (amended): in every state reachable from the empty graph by a
sequence of initialize, create_node, remove_node, add_edge, remove_edge
calls whose id arguments are all non-negative, is_edge(a, a) is false for
every a; and add_edge(a, a) is unconditionally a no-op that raises nothing. -/
theorem c4_no_self_loops (ops : List Op) (hops : ∀ op ∈ ops, op.Nonneg)
    (g : Graph) (hrun : run ops = some g) :
    (∀ a, is_edge g a a = false) ∧ (∀ b : Int, pyAddEdge g b b = some g) := by
  have hwf : WellFormed g :=
    foldlM_option_inv (fun op hop h g' hwfh hstep => applyOp_wf (hops op hop) hwfh hstep)
      ⟨fun r hr => absurd hr (List.not_mem_nil r), fun a => rfl⟩ hrun
  constructor
  · intro a
    unfold is_edge
    split_ifs with h1
    · rfl
    · rw [hwf.2 a]
      rfl
  · intro b
    unfold pyAddEdge
    split_ifs with h1 h2
    · rfl
    · rfl
    · exact absurd rfl h2

/-- C4 witness: the invariant read off a concrete non-negative call
sequence reaching the graph with the single edge 0 -> 1. -/
theorem c4_no_self_loops_witness :
    (∀ op ∈ [Op.create 1, Op.addE 0 1], op.Nonneg) ∧
    ((∀ a, is_edge [[0, 1], [0, 0]] a a = false) ∧
      (∀ b : Int, pyAddEdge [[0, 1], [0, 0]] b b = some [[0, 1], [0, 0]])) :=
  ⟨by decide,
    c4_no_self_loops [Op.create 1, Op.addE 0 1] (by decide) [[0, 1], [0, 0]] (by decide)⟩

/-- A list sums to the sum of its positional reads. -/
theorem list_sum_getD {M : Type} [AddCommMonoid M] (l : List M) :
    l.sum = ∑ j ∈ Finset.range l.length, l.getD j 0 := by
  induction l with
  | nil => simp
  | cons x xs ih =>
    rw [List.sum_cons, List.length_cons, Finset.sum_range_succ']
    simp only [List.getD_cons_succ, List.getD_cons_zero]
    rw [ih, add_comm]

/-- Summing a function mapped over List.range is the Finset.range sum. -/
theorem range_map_sum {M : Type} [AddCommMonoid M] (n : Nat) (f : Nat → M) :
    ((List.range n).map f).sum = ∑ i ∈ Finset.range n, f i := by
  induction n with
  | zero => simp
  | succ m ih =>
    rw [List.range_succ, List.map_append, List.sum_append, Finset.sum_range_succ, ih]
    simp

/-- A positional read of a list of non-negative rationals is non-negative. -/
theorem getD_nonneg {l : List ℚ} (h : ∀ x ∈ l, 0 ≤ x) (i : Nat) : 0 ≤ l.getD i 0 := by
  rw [List.getD_eq_getElem?_getD]
  cases hl : l[i]? with
  | none => simp
  | some x => simpa using h x (List.getElem?_mem hl)

/-- A positional read of a list bounded by a non-negative m is at most m. -/
theorem getD_le_of_forall_le {l : List ℚ} {m : ℚ} (hall : ∀ b ∈ l, b ≤ m)
    (hm : 0 ≤ m) (i : Nat) : l.getD i 0 ≤ m := by
  rw [List.getD_eq_getElem?_getD]
  cases hl : l[i]? with
  | none => simpa using hm
  | some x => simpa using hall x (List.getElem?_mem hl)

/-- On a square graph, the Python out-degree sum(graph[i]) is the sum of the
entries of row i over the column range. -/
theorem out_degree_eq_sum_entry (g : Graph) (hsq : Square g) (i : Nat)
    (hi : i < g.length) :
    out_degree g i = ∑ j ∈ Finset.range g.length, entry g i j := by
  obtain ⟨row, hrow⟩ : ∃ row, g[i]? = some row := ⟨_, List.getElem?_eq_getElem hi⟩
  have hget : g.getD i [] = row := by
    rw [List.getD_eq_getElem?_getD, hrow]
    rfl
  have hrl : row.length = g.length := hsq row (List.getElem?_mem hrow)
  simp only [out_degree, entry, hget]
  rw [list_sum_getD row, hrl]

/-- In a 0/1 graph every entry is 0 or 1. -/
theorem entry_zero_one (g : Graph) (h01 : ZeroOne g) (i j : Nat) :
    entry g i j = 0 ∨ entry g i j = 1 := by
  rw [entry_eq_getElem?]
  cases hrow : g[i]? with
  | none => simp
  | some row =>
    rw [Option.getD_some]
    cases hv : row[j]? with
    | none => simp
    | some v => simpa using h01 row (List.getElem?_mem hrow) v (List.getElem?_mem hv)

/-- Each source node i hands out exactly damping * scores[i] per iteration:
a sink splits it over all N slots, a non-sink over its out-neighbors. -/
theorem contrib_row_sum (g : Graph) (hsq : Square g) (h01 : ZeroOne g)
    (hN : g.length ≠ 0) (s : List ℚ) (i : Nat) (hi : i < g.length) :
    ∑ j ∈ Finset.range g.length,
      (if out_degree g i = 0 then damping * s.getD i 0 / g.length
       else if entry g i j = 1 then damping * s.getD i 0 / out_degree g i else 0)
      = damping * s.getD i 0 := by
  by_cases hod : out_degree g i = 0
  · simp only [if_pos hod]
    rw [Finset.sum_const, Finset.card_range, nsmul_eq_mul]
    field_simp
  · simp only [if_neg hod]
    have hterm : ∀ j ∈ Finset.range g.length,
        (if entry g i j = 1 then damping * s.getD i 0 / out_degree g i else 0)
          = (entry g i j : ℚ) * (damping * s.getD i 0 / out_degree g i) := by
      intro j _
      rcases entry_zero_one g h01 i j with h | h <;> simp [h]
    rw [Finset.sum_congr rfl hterm, ← Finset.sum_mul]
    have hcast : ∑ j ∈ Finset.range g.length, (entry g i j : ℚ) = (out_degree g i : ℚ) := by
      rw [out_degree_eq_sum_entry g hsq i hi]
      push_cast
      rfl
    rw [hcast]
    have hodq : (out_degree g i : ℚ) ≠ 0 := Nat.cast_ne_zero.mpr hod
    field_simp

/-- One PageRank iteration conserves total mass up to the teleport split:
the new total is (1 - d) + d times the old total. -/
theorem pr_step_sum (g : Graph) (hsq : Square g) (h01 : ZeroOne g)
    (hN : g.length ≠ 0) (s : List ℚ) (hs : s.length = g.length) :
    (pr_step g s).sum = (1 - damping) + damping * s.sum := by
  simp only [pr_step]
  rw [range_map_sum, Finset.sum_add_distrib, Finset.sum_const, Finset.card_range,
    Finset.sum_comm,
    Finset.sum_congr rfl fun i hi => contrib_row_sum g hsq h01 hN s i (Finset.mem_range.mp hi),
    ← Finset.mul_sum]
  congr 1
  · rw [nsmul_eq_mul]
    field_simp
  · congr 1
    rw [list_sum_getD s, hs]

/-- The score list keeps length N across iterations. -/
theorem pr_scores_length (g : Graph) : ∀ k, (pr_scores g k).length = g.length
  | 0 => by simp [pr_scores]
  | k + 1 => by simp [pr_scores, pr_step]

/-- C6 mass conservation, iterated: the raw scores sum to exactly 1 after
every iteration. -/
theorem pr_scores_sum (g : Graph) (hsq : Square g) (h01 : ZeroOne g)
    (hN : g.length ≠ 0) : ∀ k, (pr_scores g k).sum = 1
  | 0 => by
    simp only [pr_scores, List.sum_replicate, nsmul_eq_mul]
    field_simp
  | k + 1 => by
    rw [pr_scores, pr_step_sum g hsq h01 hN _ (pr_scores_length g k),
      pr_scores_sum g hsq h01 hN k]
    ring

/-- Raw scores stay non-negative across iterations. -/
theorem pr_scores_nonneg (g : Graph) : ∀ k, ∀ x ∈ pr_scores g k, 0 ≤ x
  | 0 => by
    intro x hx
    rw [pr_scores] at hx
    rw [List.eq_of_mem_replicate hx]
    positivity
  | k + 1 => by
    intro x hx
    simp only [pr_scores, pr_step] at hx
    obtain ⟨j, hj, rfl⟩ := List.mem_map.mp hx
    have hbase : (0 : ℚ) ≤ (1 - damping) / g.length :=
      div_nonneg (by norm_num [damping]) (Nat.cast_nonneg _)
    refine add_nonneg hbase (Finset.sum_nonneg fun i _ => ?_)
    have hsnn : 0 ≤ (pr_scores g k).getD i 0 :=
      getD_nonneg (pr_scores_nonneg g k) i
    have hdamp : (0 : ℚ) ≤ damping := by norm_num [damping]
    by_cases hod : out_degree g i = 0
    · simp only [if_pos hod]
      exact div_nonneg (mul_nonneg hdamp hsnn) (Nat.cast_nonneg _)
    · simp only [if_neg hod]
      by_cases he : entry g i j = 1
      · simp only [if_pos he]
        exact div_nonneg (mul_nonneg hdamp hsnn) (Nat.cast_nonneg _)
      · simp only [if_neg he]
        exact le_refl 0

/-- C6: on a square 0/1 graph with at least one node, the raw PageRank
scores sum to exactly 1 after every iteration (in exact rational
arithmetic), and every normalized score returned by calculate_pagerank lies
in [0, 1]. -/
theorem c6_pagerank_mass_and_bounds (g : Graph) (hsq : Square g)
    (h01 : ZeroOne g) (hN : g.length ≠ 0) :
    (∀ k, (pr_scores g k).sum = 1) ∧
    (∀ p ∈ calculate_pagerank g, 0 ≤ p.2 ∧ p.2 ≤ 1) := by
  refine ⟨pr_scores_sum g hsq h01 hN, ?_⟩
  intro p hp
  unfold calculate_pagerank at hp
  rw [if_neg hN] at hp
  obtain ⟨i, hi, rfl⟩ := List.mem_map.mp hp
  have hnonneg : ∀ x ∈ pr_scores g 20, 0 ≤ x := pr_scores_nonneg g 20
  have hlen : (pr_scores g 20).length = g.length := pr_scores_length g 20
  have hne : pr_scores g 20 ≠ [] := by
    intro h
    rw [h] at hlen
    exact hN hlen.symm
  obtain ⟨m, hm⟩ : ∃ m, (pr_scores g 20).max? = some m := by
    cases h : (pr_scores g 20).max? with
    | none => exact absurd (List.max?_eq_none_iff.mp h) hne
    | some m => exact ⟨m, rfl⟩
  have hmem : m ∈ pr_scores g 20 := List.max?_mem (fun a b => max_choice a b) hm
  have hmnn : 0 ≤ m := hnonneg m hmem
  have hall : ∀ b ∈ pr_scores g 20, b ≤ m :=
    (List.max?_le_iff (fun a b c => max_le_iff) hm).mp (le_refl m)
  have hm0 : (pr_scores g 20).max?.getD 1 = m := by rw [hm]; rfl
  rw [hm0]
  have hgle : (pr_scores g 20).getD i 0 ≤ m := getD_le_of_forall_le hall hmnn i
  have hgnn : 0 ≤ (pr_scores g 20).getD i 0 := getD_nonneg hnonneg i
  by_cases hmz : m = 0
  · rw [if_pos hmz]
    have hz : (pr_scores g 20).getD i 0 = 0 := le_antisymm (hmz ▸ hgle) hgnn
    rw [hz]
    norm_num
  · rw [if_neg hmz]
    have hmpos : 0 < m := lt_of_le_of_ne hmnn (Ne.symm hmz)
    exact ⟨div_nonneg hgnn hmnn, (div_le_one hmpos).mpr hgle⟩

/-- C6 witness: the two-node graph with the single edge 0 -> 1. -/
theorem c6_pagerank_mass_and_bounds_witness :
    (∀ k, (pr_scores [[0, 1], [0, 0]] k).sum = 1) ∧
    (∀ p ∈ calculate_pagerank [[0, 1], [0, 0]], 0 ≤ p.2 ∧ p.2 ≤ 1) :=
  c6_pagerank_mass_and_bounds [[0, 1], [0, 0]] (by decide) (by decide) (by decide)
